import Mathlib

/-!
Verification of the binance-demo trading core.

This file gives a shallow embedding of the two core components of the
repository and proves the specification claims about them:

* `services/binance_client.py`: the LOT_SIZE quantity normalizer
  (`adjust_quantity_to_lot`) and the market-order entry point
  (`place_market_order`).
* `services/indicators.py`: the indicator pipeline (`add_basic_indicators`)
  built from pandas `rolling(...).mean()` and the `ta` library's
  `RSIIndicator` and `MACD` (whose exponential averages are
  `ewm(span, min_periods=window, adjust=False).mean()` when `fillna=False`).

Python binary floats are idealised as exact rationals (`ℚ`); float-typed
pandas cells that can be NaN are modelled as `Option ℚ` with `none` for NaN.
Decimal strings coming from the exchange are lists of characters, and the
string manipulations of the source (`split`, `rstrip`, `in`, `len`,
`float(...)`, `f"{q:.{d}f}"`, `str(...)`) are modelled character by character.
-/

/-- A symbol's LOT_SIZE filter as delivered by the exchange: the `minQty` and
`stepSize` fields are decimal strings, modelled as lists of characters
(`adjust_quantity_to_lot` reads both `float(lot["stepSize"])` and the raw
string `lot["stepSize"]`). -/
structure LotFilter where
  minQty : List Char
  stepSize : List Char
deriving DecidableEq

/-- Split a character list at the first dot: the part before the first '.'
and, when a dot occurs, everything after it.  This is the split used by
Python's `s.split(".")[0]` and `s.split(".")[1]` on well-formed decimal
strings (which contain at most one dot). -/
def breakAtDot : List Char → List Char × Option (List Char)
  | [] => ([], none)
  | c :: cs =>
    if c = '.' then ([], some cs)
    else (c :: (breakAtDot cs).1, (breakAtDot cs).2)

/-- Strip trailing '0' characters: Python `s.rstrip("0")`. -/
def rstrip0 (s : List Char) : List Char :=
  (s.reverse.dropWhile (fun c => c = '0')).reverse

/-- Numeric value of a digit string (each character contributes
`c.toNat - 48`, the value Python assigns to the digits '0'..'9'). -/
def natOfDigits (s : List Char) : ℕ :=
  s.foldl (fun a c => 10 * a + (c.toNat - 48)) 0

/-- Value of a decimal string such as `"0.00100000"`, as Python
`float(...)` reads it (exact rational idealisation of the IEEE value). -/
def parseDec (s : List Char) : ℚ :=
  match breakAtDot s with
  | (i, none) => (natOfDigits i : ℚ)
  | (i, some f) => (natOfDigits i : ℚ) + (natOfDigits f : ℚ) / 10 ^ f.length

/-- Decimal precision implied by the step-size string, from
`binance_client.py` lines 131-135:
`decimals = len(step_str.rstrip("0").split(".")[1]) if "." in step_str else 0`. -/
def decimalsOf (s : List Char) : ℕ :=
  if '.' ∈ s then
    match (breakAtDot (rstrip0 s)).2 with
    | some frac => frac.length
    | none => 0
  else 0

/-- Round to the nearest integer, ties to even: the rounding applied by
Python's fixed-point float formatting to an exactly representable value. -/
def rne (x : ℚ) : ℤ :=
  if x - ⌊x⌋ < 1 / 2 then ⌊x⌋
  else if 1 / 2 < x - ⌊x⌋ then ⌊x⌋ + 1
  else if 2 ∣ ⌊x⌋ then ⌊x⌋ else ⌊x⌋ + 1

/-- Python `float(f"{qty:.{d}f}")`: render `qty` at `d` decimal places
(rounding to nearest, ties to even) and read the result back. -/
def fmtRound (d : ℕ) (q : ℚ) : ℚ := (rne (q * 10 ^ d) : ℚ) / 10 ^ d

/-- `binance_client.adjust_quantity_to_lot` (lines 111-138), with the
symbol's LOT_SIZE filter passed explicitly in place of the network fetch:
clamp the requested quantity up to `minQty`, floor it onto the `stepSize`
grid when `stepSize > 0`, and re-render at the precision implied by the
step-size string. -/
def adjust_quantity_to_lot (lot : LotFilter) (quantity : ℚ) : ℚ :=
  let min_qty := parseDec lot.minQty
  let step_size := parseDec lot.stepSize
  let step_str := lot.stepSize
  let qty := max quantity min_qty
  let qty := if 0 < step_size then (⌊qty / step_size⌋ : ℚ) * step_size else qty
  let decimals := decimalsOf step_str
  fmtRound decimals qty

/-- The two `ValueError`s raised by `place_market_order` before any network
call: a side other than BUY/SELL, or a non-positive requested quantity. -/
inductive OrderError where
  | invalidSide
  | invalidQuantity
deriving DecidableEq

/-- The market-order request handed to the exchange client:
`create_order(symbol=symbol.upper(), side=side, type=MARKET,
quantity=str(adj_quantity))`. -/
structure Order where
  symbol : List Char
  side : List Char
  quantityStr : List Char
deriving DecidableEq

/-- Python `s.upper()` on ASCII strings. -/
def upperStr (s : List Char) : List Char := s.map Char.toUpper

/-- Number of times `p` divides `n` (0 when `p < 2` or `n = 0`); the fuel
argument keeps the recursion structural so proofs can evaluate it. -/
def multExpAux : ℕ → ℕ → ℕ → ℕ
  | 0, _, _ => 0
  | fuel + 1, p, n =>
    if 2 ≤ p ∧ p ∣ n ∧ n ≠ 0 then multExpAux fuel p (n / p) + 1 else 0

/-- Number of times `p` divides `n` (`n` itself is enough fuel). -/
def multExp (p n : ℕ) : ℕ := multExpAux n p n

/-- Base-10 digits of `n`, little-endian, by repeated division (fuel-based
structural recursion). -/
def digitsLE : ℕ → ℕ → List ℕ
  | 0, _ => []
  | _ + 1, 0 => []
  | fuel + 1, n => n % 10 :: digitsLE fuel (n / 10)

/-- Decimal digit characters of `n`, most significant first. -/
def decDigits (n : ℕ) : List Char :=
  (digitsLE n n).reverse.map fun d => Char.ofNat (48 + d)

/-- Reduce the pair `(m, d)` representing `m / 10^d` by removing trailing
decimal zeros, giving the shortest decimal digit string for the value. -/
def stripTrailing : ℕ → ℕ → ℕ × ℕ
  | m, 0 => (m, 0)
  | m, d + 1 =>
    if m % 10 = 0 ∧ m ≠ 0 then stripTrailing (m / 10) d else (m, d + 1)

/-- Exponent field of CPython's scientific float notation: a sign followed
by at least two digits (`e-05`, `e+16`). -/
def expChars (e : ℤ) : List Char :=
  let ds := decDigits e.natAbs
  (if e < 0 then ['-'] else ['+']) ++ (if ds.length < 2 then '0' :: ds else ds)

/-- Fixed-point rendering of the value with digit characters `ds` and `d`
fractional digits, as produced by CPython float `repr`/`str` (an integral
value is rendered with a trailing `.0`). -/
def fixedChars (ds : List Char) (d : ℕ) : List Char :=
  if d = 0 then ds ++ ['.', '0']
  else if d < ds.length then
    ds.take (ds.length - d) ++ '.' :: ds.drop (ds.length - d)
  else '0' :: '.' :: (List.replicate (d - ds.length) '0' ++ ds)

/-- Scientific rendering `d₁[.rest]e±XX` of the value `ds · 10^(L-1-d)`,
as produced by CPython float `repr`/`str`. -/
def sciChars (ds : List Char) (d : ℕ) : List Char :=
  (match ds with
   | [] => []
   | c :: rest => c :: (if rest.isEmpty then [] else '.' :: rest)) ++
    'e' :: expChars ((ds.length : ℤ) - 1 - (d : ℤ))

/-- Digit/format selection of CPython float `repr` on the value `m0/10^d0`:
strip trailing decimal zeros, then use fixed-point notation exactly when
the decimal exponent of the leading digit lies in `[-4, 16)`, scientific
notation otherwise. -/
def pyStrOfParts (m0 d0 : ℕ) : List Char :=
  let p := stripTrailing m0 d0
  let ds := decDigits p.1
  let e : ℤ := (ds.length : ℤ) - 1 - (p.2 : ℤ)
  if e < -4 ∨ 16 ≤ e then sciChars ds p.2 else fixedChars ds p.2

/-- Python `str(...)` applied to a float whose exact value is the decimal
rational `q`: `str(0.0) = "0.0"`, otherwise the shortest decimal digits of
`|q|` with a sign, rendered fixed-point or scientific according to the
decimal exponent (CPython float `repr`, exact-decimal idealisation). -/
def pyStr (q : ℚ) : List Char :=
  if q = 0 then ['0', '.', '0']
  else
    (if q < 0 then ['-'] else []) ++
      pyStrOfParts (|q| * 10 ^ (max (multExp 2 q.den) (multExp 5 q.den))).num.natAbs
        (max (multExp 2 q.den) (multExp 5 q.den))

/-- `binance_client.place_market_order` (lines 141-166) with the LOT_SIZE
filter passed explicitly in place of the network fetch: upper-case the
side and reject it unless it is BUY or SELL, then reject non-positive
quantities, then adjust the quantity to the lot grid and submit it as the
string `str(adj_quantity)`. -/
def place_market_order (lot : LotFilter) (symbol side : List Char)
    (quantity : ℚ) : Except OrderError Order :=
  let side := upperStr side
  if ¬ (side = "BUY".data ∨ side = "SELL".data) then .error .invalidSide
  else if quantity ≤ 0 then .error .invalidQuantity
  else
    let adj := adjust_quantity_to_lot lot quantity
    .ok ⟨upperStr symbol, side, pyStr adj⟩

/-- The indicator dataframe produced by `add_basic_indicators`: the input
`close` column plus one computed column per indicator, one row per candle.
Cells that pandas would hold as NaN are `none`. -/
structure IndicatorFrame where
  close : List ℚ
  sma_fast : List (Option ℚ)
  sma_slow : List (Option ℚ)
  rsi : List (Option ℚ)
  macd : List (Option ℚ)
  macd_signal : List (Option ℚ)
deriving DecidableEq

/-- pandas `series.rolling(window=w).mean()` with the default
`min_periods = w`: the trailing-`w` arithmetic mean once `w` observations
exist, NaN before that. -/
def sma (w : ℕ) (xs : List ℚ) : List (Option ℚ) :=
  (List.range xs.length).map fun i =>
    if w ≤ i + 1 then some (((xs.drop (i + 1 - w)).take w).sum / (w : ℚ)) else none

/-- One step of the `adjust=False` exponentially weighted mean: the first
observation seeds the state, afterwards `y = (1-α)·prev + α·x`. -/
def ewmStep (a : ℚ) (st : Option ℚ) (x : ℚ) : ℚ :=
  match st with
  | none => x
  | some p => (1 - a) * p + a * x

/-- pandas `series.ewm(alpha=a, min_periods=m, adjust=False).mean()` on a
series that may contain NaNs: a NaN input leaves the state and the
observation count unchanged (the running mean is carried forward once `m`
observations exist), and every output is NaN until `m` non-NaN inputs have
been consumed. -/
def ewmAux (a : ℚ) (m : ℕ) : Option ℚ → ℕ → List (Option ℚ) → List (Option ℚ)
  | _, _, [] => []
  | st, cnt, none :: tl =>
    (if m ≤ cnt then st else none) :: ewmAux a m st cnt tl
  | st, cnt, some x :: tl =>
    (if m ≤ cnt + 1 then some (ewmStep a st x) else none) ::
      ewmAux a m (some (ewmStep a st x)) (cnt + 1) tl

/-- pandas `series.ewm(alpha=a, min_periods=m, adjust=False).mean()`. -/
def ewmMean (a : ℚ) (m : ℕ) (xs : List (Option ℚ)) : List (Option ℚ) :=
  ewmAux a m none 0 xs

/-- The `ta` library's `_ema(series, periods, fillna=False)`:
`series.ewm(span=periods, min_periods=periods, adjust=False).mean()`,
where `span=p` means `α = 2/(p+1)`. -/
def taEma (periods : ℕ) (xs : List (Option ℚ)) : List (Option ℚ) :=
  ewmMean (2 / ((periods : ℚ) + 1)) periods xs

/-- pandas `close.diff(1)`: NaN at index 0, successive difference after. -/
def diffList (xs : List ℚ) : List (Option ℚ) :=
  match xs with
  | [] => []
  | _ :: _ => none :: List.zipWith (fun prev cur => some (cur - prev)) xs xs.tail

/-- Elementwise NaN-propagating binary operation on two aligned series. -/
def zipCells (f : ℚ → ℚ → ℚ) (as bs : List (Option ℚ)) : List (Option ℚ) :=
  List.zipWith (fun a b =>
    match a, b with
    | some x, some y => some (f x y)
    | _, _ => none) as bs

/-- `diff.where(diff > 0, 0.0)` from `ta.momentum.RSIIndicator`: keep
positive moves; everything else — including the leading NaN, whose
comparison with 0 is False — becomes `0.0`. -/
def upMoves (diff : List (Option ℚ)) : List ℚ :=
  diff.map fun c =>
    match c with
    | some d => if 0 < d then d else 0
    | none => 0

/-- `-diff.where(diff < 0, 0.0)` from `ta.momentum.RSIIndicator`. -/
def downMoves (diff : List (Option ℚ)) : List ℚ :=
  diff.map fun c =>
    match c with
    | some d => if d < 0 then -d else 0
    | none => 0

/-- `ta.momentum.RSIIndicator(close, window).rsi()` with `fillna=False`:
EWMs of gains and losses with `alpha = 1/window` and
`min_periods = window`, then `100 - 100 / (1 + rs)`.  Division by zero (a
flat window) inherits Lean's `x / 0 = 0` convention here where pandas
would produce `inf`; no claim in this file depends on that cell value. -/
def rsiCol (window : ℕ) (closes : List ℚ) : List (Option ℚ) :=
  let diff := diffList closes
  let emaup := ewmMean (1 / (window : ℚ)) window ((upMoves diff).map some)
  let emadn := ewmMean (1 / (window : ℚ)) window ((downMoves diff).map some)
  let rs := zipCells (fun u d => u / d) emaup emadn
  rs.map (Option.map fun r => 100 - 100 / (1 + r))

/-- `ta.trend.MACD(close)` macd line: EMA(12) − EMA(26) of the closes,
NaN wherever either EMA is NaN. -/
def macdLine (closes : List ℚ) : List (Option ℚ) :=
  zipCells (fun a b => a - b) (taEma 12 (closes.map some))
    (taEma 26 (closes.map some))

/-- `ta.trend.MACD(close)` signal line: EMA(9) of the macd line. -/
def macdSignal (closes : List ℚ) : List (Option ℚ) :=
  taEma 9 (macdLine closes)

/-- `indicators.add_basic_indicators` on the close column: SMA(9),
SMA(21), RSI(14), MACD(12, 26) and its signal line (9), each aligned
positionally with the input candles. -/
def add_basic_indicators (closes : List ℚ) : IndicatorFrame :=
  ⟨closes, sma 9 closes, sma 21 closes, rsiCol 14 closes, macdLine closes,
    macdSignal closes⟩

/-- Inversion for `breakAtDot` when no dot was found. -/
theorem breakAtDot_eq_none {s i : List Char} (h : breakAtDot s = (i, none)) :
    s = i ∧ '.' ∉ i := by
  induction s generalizing i with
  | nil =>
    simp only [breakAtDot, Prod.mk.injEq] at h
    simp [← h.1]
  | cons c cs ih =>
    by_cases hc : c = '.'
    · simp [breakAtDot, hc] at h
    · simp only [breakAtDot, if_neg hc, Prod.mk.injEq] at h
      obtain ⟨h1, h2⟩ := h
      obtain ⟨hcs, hmem⟩ := ih (Prod.ext rfl h2)
      subst h1
      refine ⟨congrArg (List.cons c) hcs, ?_⟩
      intro hm
      rcases List.mem_cons.1 hm with hm | hm
      · exact hc hm.symm
      · exact hmem hm

/-- Inversion for `breakAtDot` when a dot was found: the input is the
prefix, the dot, and the remainder, and the prefix is dot-free. -/
theorem breakAtDot_eq_some {s i f : List Char} (h : breakAtDot s = (i, some f)) :
    s = i ++ '.' :: f ∧ '.' ∉ i := by
  induction s generalizing i f with
  | nil => simp [breakAtDot] at h
  | cons c cs ih =>
    by_cases hc : c = '.'
    · simp only [breakAtDot, if_pos hc, Prod.mk.injEq] at h
      obtain ⟨h1, h2⟩ := h
      subst hc
      obtain rfl : cs = f := Option.some_injective _ h2
      simp [← h1]
    · simp only [breakAtDot, if_neg hc, Prod.mk.injEq] at h
      obtain ⟨h1, h2⟩ := h
      obtain ⟨hs, hmem⟩ := ih (Prod.ext rfl h2)
      refine ⟨?_, ?_⟩
      · rw [← h1, List.cons_append, ← hs]
      · rw [← h1]
        intro hm
        rcases List.mem_cons.1 hm with hm | hm
        · exact hc hm.symm
        · exact hmem hm

/-- `breakAtDot` applied to a dot-free prefix followed by a dot. -/
theorem breakAtDot_append {i : List Char} (f : List Char) (h : '.' ∉ i) :
    breakAtDot (i ++ '.' :: f) = (i, some f) := by
  induction i with
  | nil => simp [breakAtDot]
  | cons c cs ih =>
    have hc : ¬ c = '.' := fun e => h (by simp [e])
    have hcs : '.' ∉ cs := fun hm => h (List.mem_cons_of_mem _ hm)
    simp [breakAtDot, hc, ih hcs]

/-- Dropping a leading run of `p`-elements stops no later than an element
that fails `p`. -/
theorem dropWhile_append_cons {p : Char → Bool} {a : Char} (l₁ l₂ : List Char)
    (ha : p a = false) :
    (l₁ ++ a :: l₂).dropWhile p = l₁.dropWhile p ++ a :: l₂ := by
  induction l₁ with
  | nil => simp [List.dropWhile_cons, ha]
  | cons c cs ih =>
    by_cases hc : p c
    · simp [List.dropWhile_cons, hc, ih]
    · simp [List.dropWhile_cons, hc]

/-- `rstrip0` strips only inside the fractional part of a decimal string. -/
theorem rstrip0_append_dot (i f : List Char) :
    rstrip0 (i ++ '.' :: f) = i ++ '.' :: rstrip0 f := by
  unfold rstrip0
  rw [List.reverse_append, List.reverse_cons, List.append_assoc,
    List.singleton_append, dropWhile_append_cons _ _ (by decide), List.reverse_append,
    List.reverse_cons, List.reverse_reverse]
  simp

/-- A list is its zero-stripped form followed by a run of '0's. -/
theorem rstrip0_decomp (f : List Char) :
    ∃ t, f = rstrip0 f ++ List.replicate t '0' := by
  refine ⟨(f.reverse.takeWhile (fun c => decide (c = '0'))).length, ?_⟩
  have h1 : (f.reverse.takeWhile (fun c => decide (c = '0'))).reverse =
      List.replicate (f.reverse.takeWhile (fun c => decide (c = '0'))).length '0' := by
    rw [List.eq_replicate_iff]
    refine ⟨by simp, fun b hb => ?_⟩
    have := List.mem_takeWhile_imp (List.mem_reverse.1 hb)
    simpa using this
  conv_lhs => rw [← List.reverse_reverse f,
    ← @List.takeWhile_append_dropWhile _ (fun c => decide (c = '0')) f.reverse]
  rw [List.reverse_append]
  rw [rstrip0, h1]

/-- `natOfDigits` over an appended suffix. -/
theorem natOfDigits_append (a b : List Char) :
    natOfDigits (a ++ b) = natOfDigits a * 10 ^ b.length + natOfDigits b := by
  have key : ∀ (b : List Char) (acc : ℕ),
      b.foldl (fun a c => 10 * a + (c.toNat - 48)) acc =
        acc * 10 ^ b.length + b.foldl (fun a c => 10 * a + (c.toNat - 48)) 0 := by
    intro b
    induction b with
    | nil => intro acc; simp
    | cons c cs ih =>
      intro acc
      simp only [List.foldl_cons, List.length_cons]
      rw [ih (10 * acc + (c.toNat - 48)), ih (10 * 0 + (c.toNat - 48))]
      ring
  unfold natOfDigits
  rw [List.foldl_append, key]

/-- A run of '0' digits contributes nothing. -/
theorem natOfDigits_replicate_zero (t : ℕ) :
    natOfDigits (List.replicate t '0') = 0 := by
  induction t with
  | zero => rfl
  | succ n ih =>
    have hsplit : ('0' :: List.replicate n '0' : List Char) =
        ['0'] ++ List.replicate n '0' := rfl
    rw [List.replicate_succ, hsplit, natOfDigits_append, ih,
      show natOfDigits ['0'] = 0 from rfl]
    simp

/-- Unfolding `parseDec` along a `breakAtDot` result with a dot. -/
theorem parseDec_eq_some {s i f : List Char} (h : breakAtDot s = (i, some f)) :
    parseDec s = (natOfDigits i : ℚ) + (natOfDigits f : ℚ) / 10 ^ f.length := by
  unfold parseDec
  rw [h]

/-- Unfolding `parseDec` along a `breakAtDot` result without a dot. -/
theorem parseDec_eq_none {s i : List Char} (h : breakAtDot s = (i, none)) :
    parseDec s = (natOfDigits i : ℚ) := by
  unfold parseDec
  rw [h]

/-- Parsed decimal strings are never negative. -/
theorem parseDec_nonneg (s : List Char) : 0 ≤ parseDec s := by
  unfold parseDec
  rcases h : breakAtDot s with ⟨i, o⟩
  cases o with
  | none => positivity
  | some f => positivity

/-- Every parsed step string is an integer number of units in the last
decimal place reported by `decimalsOf`: the re-rendering precision always
captures the parsed value exactly. -/
theorem parseDec_mul_pow (s : List Char) :
    ∃ m : ℕ, parseDec s = (m : ℚ) / 10 ^ decimalsOf s := by
  rcases h : breakAtDot s with ⟨i, o⟩
  cases o with
  | none =>
    obtain ⟨hsi, hni⟩ := breakAtDot_eq_none h
    refine ⟨natOfDigits i, ?_⟩
    have hdot : '.' ∉ s := by rw [hsi]; exact hni
    rw [parseDec_eq_none h, decimalsOf, if_neg hdot]
    simp
  | some f =>
    obtain ⟨hs, hni⟩ := breakAtDot_eq_some h
    have hdot : '.' ∈ s := by rw [hs]; simp
    obtain ⟨t, hf⟩ := rstrip0_decomp f
    have hlen : f.length = (rstrip0 f).length + t := by
      conv_lhs => rw [hf]
      simp
    have hval : natOfDigits f = natOfDigits (rstrip0 f) * 10 ^ t := by
      conv_lhs => rw [hf]
      rw [natOfDigits_append, natOfDigits_replicate_zero, List.length_replicate]
      ring
    have hd : decimalsOf s = (rstrip0 f).length := by
      rw [decimalsOf, if_pos hdot, hs, rstrip0_append_dot, breakAtDot_append _ hni]
    refine ⟨natOfDigits i * 10 ^ (rstrip0 f).length + natOfDigits (rstrip0 f), ?_⟩
    rw [parseDec_eq_some h, hd, hval, hlen]
    have h10 : (10 : ℚ) ^ ((rstrip0 f).length + t) = 10 ^ (rstrip0 f).length * 10 ^ t := by
      rw [pow_add]
    push_cast
    rw [h10]
    have ht : (10 : ℚ) ^ t ≠ 0 := by positivity
    have hr : (10 : ℚ) ^ (rstrip0 f).length ≠ 0 := by positivity
    field_simp
    ring

/-- `rne` of an integer is that integer. -/
theorem rne_intCast (z : ℤ) : rne (z : ℚ) = z := by
  unfold rne
  rw [Int.floor_intCast]
  norm_num

/-- `rne` picks `z` whenever the value lies in `[z, z + 1/2)`. -/
theorem rne_eval_lo {z : ℤ} {x : ℚ} (h1 : (z : ℚ) ≤ x) (h2 : x < z + 1 / 2) :
    rne x = z := by
  have hfl : ⌊x⌋ = z := by
    rw [Int.floor_eq_iff]
    exact ⟨h1, by linarith⟩
  unfold rne
  rw [hfl, if_pos (by linarith)]

/-- `rne` picks `z` whenever the value lies in `(z - 1/2, z]`. -/
theorem rne_eval_hi {z : ℤ} {x : ℚ} (h1 : (z : ℚ) - 1 / 2 < x) (h2 : x ≤ z) :
    rne x = z := by
  rcases eq_or_lt_of_le h2 with heq | hlt
  · rw [heq, rne_intCast]
  · have hfl : ⌊x⌋ = z - 1 := by
      rw [Int.floor_eq_iff]
      push_cast
      constructor
      · linarith
      · linarith
    unfold rne
    rw [hfl]
    rw [if_neg (by push_cast; linarith), if_pos (by push_cast; linarith)]
    ring

/-- `fmtRound` is the identity on values already expressible with `d`
decimal places. -/
theorem fmtRound_int_div (d : ℕ) (z : ℤ) :
    fmtRound d ((z : ℚ) / 10 ^ d) = (z : ℚ) / 10 ^ d := by
  unfold fmtRound
  have h10 : (10 : ℚ) ^ d ≠ 0 := by positivity
  rw [div_mul_cancel₀ _ h10, rne_intCast]

/-- Unfolding of `adjust_quantity_to_lot`. -/
theorem adjust_eval (lot : LotFilter) (q : ℚ) :
    adjust_quantity_to_lot lot q =
      fmtRound (decimalsOf lot.stepSize)
        (if 0 < parseDec lot.stepSize then
          (⌊max q (parseDec lot.minQty) / parseDec lot.stepSize⌋ : ℚ) *
            parseDec lot.stepSize
        else max q (parseDec lot.minQty)) := rfl

/-- With a positive step, the adjusted quantity is exactly the floored
number of steps times the step size (the final re-rendering is exact). -/
theorem adjust_pos_step (lot : LotFilter) (q : ℚ)
    (h : 0 < parseDec lot.stepSize) :
    adjust_quantity_to_lot lot q =
      (⌊max q (parseDec lot.minQty) / parseDec lot.stepSize⌋ : ℚ) *
        parseDec lot.stepSize := by
  obtain ⟨M, hM⟩ := parseDec_mul_pow lot.stepSize
  rw [adjust_eval, if_pos h]
  set k : ℤ := ⌊max q (parseDec lot.minQty) / parseDec lot.stepSize⌋ with hk
  have hrepr : (k : ℚ) * parseDec lot.stepSize =
      ((k * M : ℤ) : ℚ) / 10 ^ decimalsOf lot.stepSize := by
    rw [hM]
    push_cast
    ring
  rw [hrepr, fmtRound_int_div, ← hrepr]

/-- `rne` never rounds down by as much as one half. -/
theorem rne_ge (x : ℚ) : x - 1 / 2 ≤ (rne x : ℚ) := by
  have h0 : (⌊x⌋ : ℚ) ≤ x := Int.floor_le x
  have h1 : x < ⌊x⌋ + 1 := Int.lt_floor_add_one x
  unfold rne
  split_ifs with ha hb hc <;> push_cast <;> linarith

/-- C1 (amended): with a positive step the adjusted quantity is always an
exact multiple of the step size, and it is at least `min_quantity` whenever
`min_quantity` is itself an exact multiple of the step size. -/
theorem C1_multiple_of_step (lot : LotFilter) (q : ℚ)
    (hstep : 0 < parseDec lot.stepSize) (_hmin : 0 ≤ parseDec lot.minQty)
    (_hq : 0 < q) :
    (∃ k : ℤ, adjust_quantity_to_lot lot q = (k : ℚ) * parseDec lot.stepSize) ∧
      ((∃ j : ℤ, parseDec lot.minQty = (j : ℚ) * parseDec lot.stepSize) →
        parseDec lot.minQty ≤ adjust_quantity_to_lot lot q) := by
  rw [adjust_pos_step _ _ hstep]
  constructor
  · exact ⟨⌊max q (parseDec lot.minQty) / parseDec lot.stepSize⌋, rfl⟩
  · rintro ⟨j, hj⟩
    have h1 : (j : ℚ) ≤ max q (parseDec lot.minQty) / parseDec lot.stepSize := by
      rw [le_div_iff₀ hstep, ← hj]
      exact le_max_right _ _
    have h2 : j ≤ ⌊max q (parseDec lot.minQty) / parseDec lot.stepSize⌋ :=
      Int.le_floor.2 h1
    calc parseDec lot.minQty = (j : ℚ) * parseDec lot.stepSize := hj
      _ ≤ (⌊max q (parseDec lot.minQty) / parseDec lot.stepSize⌋ : ℚ) *
            parseDec lot.stepSize := by
          apply mul_le_mul_of_nonneg_right _ (le_of_lt hstep)
          exact_mod_cast h2

/-- C1 (counterexample): for the rule `{min_quantity: 0.05, step_size: 0.1}`
(a min that is not on the step grid) and requested quantity `0.01`, the
normalizer returns `0`, which is strictly below `min_quantity`, refuting
`result >= min_quantity` as stated. -/
theorem C1_cex_result_below_min :
    0 < parseDec "0.1".data ∧ 0 ≤ parseDec "0.05".data ∧ (0 : ℚ) < 1 / 100 ∧
      adjust_quantity_to_lot ⟨"0.05".data, "0.1".data⟩ (1 / 100) <
        parseDec "0.05".data := by
  have hstep : parseDec "0.1".data = 1 / 10 := by
    rw [parseDec_eq_some (by decide : breakAtDot "0.1".data = (['0'], some ['1']))]
    norm_num [show natOfDigits ['0'] = 0 from rfl, show natOfDigits ['1'] = 1 from rfl]
  have hmin : parseDec "0.05".data = 1 / 20 := by
    rw [parseDec_eq_some (by decide : breakAtDot "0.05".data = (['0'], some ['0', '5']))]
    norm_num [show natOfDigits ['0'] = 0 from rfl, show natOfDigits ['0', '5'] = 5 from rfl]
  have hpos : 0 < parseDec (⟨"0.05".data, "0.1".data⟩ : LotFilter).stepSize := by
    show 0 < parseDec "0.1".data
    rw [hstep]
    norm_num
  refine ⟨by rw [hstep]; norm_num, by rw [hmin]; norm_num, by norm_num, ?_⟩
  rw [adjust_pos_step _ _ hpos]
  show (⌊max (1 / 100 : ℚ) (parseDec "0.05".data) / parseDec "0.1".data⌋ : ℚ) *
      parseDec "0.1".data < parseDec "0.05".data
  rw [hstep, hmin]
  have hmax : max (1 / 100 : ℚ) (1 / 20) = 1 / 20 := by
    rw [max_eq_right]
    norm_num
  rw [hmax]
  have hfl : ⌊(1 / 20 : ℚ) / (1 / 10)⌋ = 0 := by
    have : (1 / 20 : ℚ) / (1 / 10) = 1 / 2 := by norm_num
    rw [this, Int.floor_eq_iff]
    norm_num
  rw [hfl]
  norm_num

/-- C1 (witness): at the grid-aligned rule `{min: 0.01, step: 0.01}` and
requested quantity `0.03`, the amended claim applies. -/
theorem C1_witness :
    (∃ k : ℤ, adjust_quantity_to_lot ⟨"0.01".data, "0.01".data⟩ (3 / 100) =
        (k : ℚ) * parseDec "0.01".data) ∧
      parseDec "0.01".data ≤
        adjust_quantity_to_lot ⟨"0.01".data, "0.01".data⟩ (3 / 100) := by
  have hpd : parseDec "0.01".data = 1 / 100 := by
    rw [parseDec_eq_some (by decide : breakAtDot "0.01".data = (['0'], some ['0', '1']))]
    norm_num [show natOfDigits ['0'] = 0 from rfl, show natOfDigits ['0', '1'] = 1 from rfl]
  have h := C1_multiple_of_step ⟨"0.01".data, "0.01".data⟩ (3 / 100)
    (by show 0 < parseDec "0.01".data; rw [hpd]; norm_num)
    (by show (0 : ℚ) ≤ parseDec "0.01".data; rw [hpd]; norm_num)
    (by norm_num)
  refine ⟨h.1, h.2 ⟨1, ?_⟩⟩
  show parseDec "0.01".data = ((1 : ℤ) : ℚ) * parseDec "0.01".data
  rw [hpd]
  norm_num

/-- C6: normalization is idempotent: re-normalizing the normalizer's output
returns it unchanged, for every rule and every requested quantity. -/
theorem C6_idempotent (lot : LotFilter) (q : ℚ) :
    adjust_quantity_to_lot lot (adjust_quantity_to_lot lot q) =
      adjust_quantity_to_lot lot q := by
  by_cases hstep : 0 < parseDec lot.stepSize
  · rw [adjust_pos_step lot (adjust_quantity_to_lot lot q) hstep,
      adjust_pos_step lot q hstep]
    set s := parseDec lot.stepSize with hs
    set mn := parseDec lot.minQty with hmn
    set k : ℤ := ⌊max q mn / s⌋ with hk
    by_cases hge : mn ≤ (k : ℚ) * s
    · rw [max_eq_left hge, mul_div_cancel_right₀ _ (ne_of_gt hstep), Int.floor_intCast]
    · push_neg at hge
      rw [max_eq_right (le_of_lt hge)]
      have hk_le : k ≤ ⌊mn / s⌋ := by
        apply Int.le_floor.2
        rw [le_div_iff₀ hstep]
        exact le_of_lt hge
      have hle_k : ⌊mn / s⌋ ≤ k := by
        apply Int.floor_le_floor
        exact (div_le_div_iff_of_pos_right hstep).2 (le_max_right _ _)
      rw [le_antisymm hle_k hk_le]
  · have heq : ∀ x, adjust_quantity_to_lot lot x =
        fmtRound (decimalsOf lot.stepSize) (max x (parseDec lot.minQty)) := by
      intro x
      rw [adjust_eval, if_neg hstep]
    set d := decimalsOf lot.stepSize with hd
    set mn := parseDec lot.minQty with hmn
    rw [heq (adjust_quantity_to_lot lot q), heq q]
    set r := fmtRound d (max q mn) with hr
    by_cases hge : mn ≤ r
    · rw [max_eq_left hge, hr]
      exact fmtRound_int_div d _
    · push_neg at hge
      rw [max_eq_right (le_of_lt hge)]
      by_cases hqm : q ≤ mn
      · rw [hr, max_eq_right hqm]
      · push_neg at hqm
        rw [max_eq_left (le_of_lt hqm)] at hr
        have hd10 : (0 : ℚ) < 10 ^ d := by positivity
        have hrq : r = (rne (q * 10 ^ d) : ℚ) / 10 ^ d := hr
        have hlt1 : (rne (q * 10 ^ d) : ℚ) < mn * 10 ^ d := by
          rw [hrq] at hge
          calc (rne (q * 10 ^ d) : ℚ) = (rne (q * 10 ^ d) : ℚ) / 10 ^ d * 10 ^ d := by
                field_simp
            _ < mn * 10 ^ d := by
                exact (mul_lt_mul_right hd10).2 hge
        have hlt2 : mn * 10 ^ d < (rne (q * 10 ^ d) : ℚ) + 1 / 2 := by
          have hq10 : q * 10 ^ d - 1 / 2 ≤ (rne (q * 10 ^ d) : ℚ) := rne_ge _
          have : mn * 10 ^ d < q * 10 ^ d := (mul_lt_mul_right hd10).2 hqm
          nlinarith [hd10]
        have hne : rne (mn * 10 ^ d) = rne (q * 10 ^ d) :=
          rne_eval_lo (le_of_lt hlt1) hlt2
        show (rne (mn * 10 ^ d) : ℚ) / 10 ^ d = r
        rw [hne, hrq]

/-- C9 (amended): with the step string `"0.00000000"` quantization is
skipped and the display precision is 0 decimals, so the result is
`max(requested, min_quantity)` rounded to the nearest integer; in
particular a requested quantity below `0.5` normalizes to `0.0` whenever
`min_quantity` is also below `0.5`. -/
theorem C9_zero_step (lot : LotFilter) (q : ℚ)
    (hs : lot.stepSize = "0.00000000".data) :
    adjust_quantity_to_lot lot q = (rne (max q (parseDec lot.minQty)) : ℚ) ∧
      (q < 1 / 2 → parseDec lot.minQty < 1 / 2 →
        adjust_quantity_to_lot lot q = 0) := by
  have hparse : parseDec lot.stepSize = 0 := by
    rw [hs, parseDec_eq_some (by decide : breakAtDot "0.00000000".data =
      (['0'], some ['0', '0', '0', '0', '0', '0', '0', '0']))]
    norm_num [show natOfDigits ['0'] = 0 from rfl,
      show natOfDigits ['0', '0', '0', '0', '0', '0', '0', '0'] = 0 from rfl]
  have hdz : decimalsOf lot.stepSize = 0 := by rw [hs]; decide
  have hnotpos : ¬ 0 < parseDec lot.stepSize := by
    rw [hparse]
    norm_num
  have hmain : adjust_quantity_to_lot lot q =
      (rne (max q (parseDec lot.minQty)) : ℚ) := by
    rw [adjust_eval, if_neg hnotpos, hdz]
    unfold fmtRound
    norm_num
  refine ⟨hmain, fun hq hmin => ?_⟩
  rw [hmain]
  have hmax : max q (parseDec lot.minQty) < 1 / 2 := max_lt hq hmin
  have h0 : (0 : ℚ) ≤ max q (parseDec lot.minQty) :=
    le_trans (parseDec_nonneg _) (le_max_right _ _)
  have hz : rne (max q (parseDec lot.minQty)) = 0 :=
    rne_eval_lo (by exact_mod_cast h0) (by push_cast; linarith)
  rw [hz]
  norm_num

/-- C9 (counterexample): with step string `"0.00000000"` but
`min_quantity = 0.7`, the fractional requested quantity `0.3` (below `0.5`)
normalizes to `1`, not `0.0`: the clamp to the minimum happens before the
0-decimal rounding. -/
theorem C9_cex_small_quantity_not_zero :
    adjust_quantity_to_lot ⟨"0.70000000".data, "0.00000000".data⟩ (3 / 10) = 1 ∧
      (3 / 10 : ℚ) < 1 / 2 := by
  have hpd : parseDec "0.70000000".data = 7 / 10 := by
    rw [parseDec_eq_some (by decide : breakAtDot "0.70000000".data =
      (['0'], some ['7', '0', '0', '0', '0', '0', '0', '0']))]
    norm_num [show natOfDigits ['0'] = 0 from rfl,
      show natOfDigits ['7', '0', '0', '0', '0', '0', '0', '0'] = 70000000 from rfl]
  have h := (C9_zero_step ⟨"0.70000000".data, "0.00000000".data⟩ (3 / 10) rfl).1
  refine ⟨?_, by norm_num⟩
  rw [h]
  show (rne (max (3 / 10 : ℚ) (parseDec "0.70000000".data)) : ℚ) = 1
  rw [hpd, max_eq_right (by norm_num)]
  have : rne (7 / 10 : ℚ) = 1 := by
    apply rne_eval_hi
    · push_cast
      norm_num
    · push_cast
      norm_num
  rw [this]
  norm_num

/-- C9 (witness): with step string `"0.00000000"` and `min_quantity = 0`,
the requested quantity `0.3` normalizes to `0.0`. -/
theorem C9_witness :
    adjust_quantity_to_lot ⟨"0.00000000".data, "0.00000000".data⟩ (3 / 10) = 0 := by
  apply (C9_zero_step ⟨"0.00000000".data, "0.00000000".data⟩ (3 / 10) rfl).2
  · norm_num
  · show parseDec "0.00000000".data < 1 / 2
    rw [parseDec_eq_some (by decide : breakAtDot "0.00000000".data =
      (['0'], some ['0', '0', '0', '0', '0', '0', '0', '0']))]
    norm_num [show natOfDigits ['0'] = 0 from rfl,
      show natOfDigits ['0', '0', '0', '0', '0', '0', '0', '0'] = 0 from rfl]

/-- Numerator and denominator of a fraction already in lowest terms. -/
theorem den_num_of_div (z : ℤ) (n : ℕ) (hn : n ≠ 0) (hcop : z.natAbs.Coprime n) :
    ((z : ℚ) / (n : ℚ)).num = z ∧ ((z : ℚ) / (n : ℚ)).den = n := by
  have h1 : ((z : ℚ) / (n : ℚ)) = Rat.mk' z n hn hcop := by
    rw [Rat.mk'_eq_divInt, Rat.divInt_eq_div]
    push_cast
    ring
  rw [h1]
  exact ⟨rfl, rfl⟩

/-- On positive values, `pyStr` is the digit/format selection applied to
the numerator over the matching power of ten. -/
theorem pyStr_eval_pos (q : ℚ) (hpos : 0 < q) :
    pyStr q = pyStrOfParts
        ((q * 10 ^ (max (multExp 2 q.den) (multExp 5 q.den))).num.natAbs)
        (max (multExp 2 q.den) (multExp 5 q.den)) := by
  unfold pyStr
  rw [if_neg (ne_of_gt hpos), if_neg (not_lt.2 (le_of_lt hpos)), abs_of_pos hpos]
  simp

/-- C5: a market order with a non-positive requested quantity always fails
with the invalid-quantity error, for every rule, every symbol and every
valid (case-insensitive) side; no order request is produced. -/
theorem C5_nonpositive_quantity_rejected (lot : LotFilter)
    (symbol side : List Char) (q : ℚ) (hq : q ≤ 0)
    (hside : upperStr side = "BUY".data ∨ upperStr side = "SELL".data) :
    place_market_order lot symbol side q =
      Except.error OrderError.invalidQuantity := by
  simp only [place_market_order]
  rw [if_neg (not_not_intro hside), if_pos hq]

/-- C5 (witness): quantity `0` with side `"buy"` is rejected as an invalid
quantity. -/
theorem C5_witness :
    place_market_order ⟨"0.01".data, "0.01".data⟩ "BTCUSDT".data "buy".data 0 =
      Except.error OrderError.invalidQuantity :=
  C5_nonpositive_quantity_rejected _ _ _ _ (by norm_num) (Or.inl (by decide))

/-- C10: the normalizer itself never rejects a non-positive quantity: it
clamps it up to `min_quantity` and returns normally (the same value as
normalizing `min_quantity`'s own request); positivity is enforced only in
`place_market_order`, where the upper-cased side check runs first, so an
invalid side together with a non-positive quantity fails with the
invalid-side error, not the invalid-quantity one. -/
theorem C10_clamp_and_side_first (lot : LotFilter) (symbol side : List Char)
    (q : ℚ) (hq : q ≤ 0) :
    adjust_quantity_to_lot lot q =
        adjust_quantity_to_lot lot (parseDec lot.minQty) ∧
      (¬ (upperStr side = "BUY".data ∨ upperStr side = "SELL".data) →
        place_market_order lot symbol side q =
          Except.error OrderError.invalidSide) := by
  constructor
  · have h1 : max q (parseDec lot.minQty) = parseDec lot.minQty :=
      max_eq_right (le_trans hq (parseDec_nonneg _))
    rw [adjust_eval, adjust_eval, h1, max_self]
  · intro hbad
    simp only [place_market_order]
    rw [if_pos hbad]

/-- C10 (witness): requested quantity `-1` normalizes like `min_quantity`
itself, and together with the invalid side `"hold"` the order entry fails
with the invalid-side error. -/
theorem C10_witness :
    adjust_quantity_to_lot ⟨"0.01".data, "0.01".data⟩ (-1) =
        adjust_quantity_to_lot ⟨"0.01".data, "0.01".data⟩
          (parseDec (⟨"0.01".data, "0.01".data⟩ : LotFilter).minQty) ∧
      place_market_order ⟨"0.01".data, "0.01".data⟩ "BTCUSDT".data "hold".data
          (-1) = Except.error OrderError.invalidSide := by
  have h := C10_clamp_and_side_first ⟨"0.01".data, "0.01".data⟩ "BTCUSDT".data
    "hold".data (-1) (by norm_num)
  exact ⟨h.1, h.2 (by decide)⟩

/-- C3: at the failing input (rule `{min: 0.00001, step: 0.00001}`, side
BUY, quantity `0.00001`) the order gateway submits the quantity string
`"1e-05"` — Python `str` of the adjusted float — which is exponent
notation, not the fixed-point decimal string the specification promises. -/
theorem C3_quantity_string_scientific :
    place_market_order ⟨"0.00001000".data, "0.00001000".data⟩ "BTCUSDT".data
        "BUY".data (1 / 100000) =
      Except.ok ⟨"BTCUSDT".data, "BUY".data, "1e-05".data⟩ ∧
      'e' ∈ "1e-05".data := by
  refine ⟨?_, by decide⟩
  have hbs : breakAtDot "0.00001000".data =
      (['0'], some ['0', '0', '0', '0', '1', '0', '0', '0']) := by decide
  have hstep : parseDec "0.00001000".data = 1 / 100000 := by
    rw [parseDec_eq_some hbs]
    norm_num [show natOfDigits ['0'] = 0 from rfl,
      show natOfDigits ['0', '0', '0', '0', '1', '0', '0', '0'] = 1000 from rfl]
  have hpos : 0 < parseDec (⟨"0.00001000".data, "0.00001000".data⟩ :
      LotFilter).stepSize := by
    show 0 < parseDec "0.00001000".data
    rw [hstep]
    norm_num
  have hadj : adjust_quantity_to_lot ⟨"0.00001000".data, "0.00001000".data⟩
      (1 / 100000) = 1 / 100000 := by
    rw [adjust_pos_step _ _ hpos]
    show (⌊max (1 / 100000 : ℚ) (parseDec "0.00001000".data) /
        parseDec "0.00001000".data⌋ : ℚ) * parseDec "0.00001000".data = 1 / 100000
    rw [hstep, max_self]
    have hdiv : (1 / 100000 : ℚ) / (1 / 100000) = 1 := by norm_num
    rw [hdiv, Int.floor_one]
    norm_num
  have hden : ((1 : ℚ) / 100000).den = 100000 := by
    have hc : ((1 : ℚ) / 100000) = ((1 : ℤ) : ℚ) / ((100000 : ℕ) : ℚ) := by
      norm_num
    rw [hc]
    exact (den_num_of_div 1 100000 (by norm_num) (by decide)).2
  have hstr : pyStr (1 / 100000 : ℚ) = "1e-05".data := by
    rw [pyStr_eval_pos _ (by norm_num), hden,
      show max (multExp 2 100000) (multExp 5 100000) = 5 from by decide,
      show ((1 : ℚ) / 100000) * 10 ^ 5 = 1 from by norm_num,
      show (1 : ℚ).num.natAbs = 1 from rfl]
    decide
  simp only [place_market_order]
  rw [if_neg (not_not_intro (Or.inl (by decide :
      upperStr "BUY".data = "BUY".data)))]
  rw [if_neg (by norm_num : ¬ (1 / 100000 : ℚ) ≤ 0)]
  rw [hadj, hstr, show upperStr "BTCUSDT".data = "BTCUSDT".data from by decide,
    show upperStr "BUY".data = "BUY".data from by decide]

/-- C4: the normalizer renders at the precision given by the significant
fractional digits of the step string with trailing zeros stripped
(`"0.00100000"` gives 3 decimals, `"1"` gives 0 decimals), and for the rule
`{min_quantity: 0.0001, step_size: 0.00001}` with requested quantity
`0.0015678` it returns exactly `0.00156` (floored at 5 decimals). -/
theorem C4_precision_and_floor_scenario :
    decimalsOf "0.00100000".data = 3 ∧ decimalsOf "1".data = 0 ∧
      adjust_quantity_to_lot ⟨"0.0001".data, "0.00001".data⟩ (15678 / 10000000) =
        156 / 100000 := by
  have hbs : breakAtDot "0.00001".data = (['0'], some ['0', '0', '0', '0', '1']) := by decide
  have hstep : parseDec "0.00001".data = 1 / 100000 := by
    rw [parseDec_eq_some hbs]
    norm_num [show natOfDigits ['0'] = 0 from rfl,
      show natOfDigits ['0', '0', '0', '0', '1'] = 1 from rfl]
  have hbm : breakAtDot "0.0001".data = (['0'], some ['0', '0', '0', '1']) := by decide
  have hmin : parseDec "0.0001".data = 1 / 10000 := by
    rw [parseDec_eq_some hbm]
    norm_num [show natOfDigits ['0'] = 0 from rfl,
      show natOfDigits ['0', '0', '0', '1'] = 1 from rfl]
  refine ⟨by decide, by decide, ?_⟩
  have hpos : 0 < parseDec (⟨"0.0001".data, "0.00001".data⟩ : LotFilter).stepSize := by
    show 0 < parseDec "0.00001".data
    rw [hstep]
    norm_num
  rw [adjust_pos_step _ _ hpos]
  show (⌊max (15678 / 10000000 : ℚ) (parseDec "0.0001".data) / parseDec "0.00001".data⌋ : ℚ) *
      parseDec "0.00001".data = 156 / 100000
  rw [hstep, hmin]
  have hmax : max (15678 / 10000000 : ℚ) (1 / 10000) = 15678 / 10000000 := by
    rw [max_eq_left]
    norm_num
  rw [hmax]
  have hdiv : (15678 / 10000000 : ℚ) / (1 / 100000) = 15678 / 100 := by norm_num
  have hfl : ⌊(15678 / 10000000 : ℚ) / (1 / 100000)⌋ = 156 := by
    rw [hdiv, Int.floor_eq_iff]
    norm_num
  rw [hfl]
  norm_num

/-- The EWM output has one cell per input cell. -/
theorem ewmAux_length (a : ℚ) (m : ℕ) (xs : List (Option ℚ)) :
    ∀ (st : Option ℚ) (cnt : ℕ), (ewmAux a m st cnt xs).length = xs.length := by
  induction xs with
  | nil => intro st cnt; rfl
  | cons x tl ih =>
    intro st cnt
    cases x with
    | none => simp [ewmAux, ih]
    | some v => simp [ewmAux, ih]

/-- On an all-observation input, the EWM cell at `i` is NaN exactly while
fewer than `min_periods` observations have been consumed. -/
theorem ewmAux_allSome_getElem (a : ℚ) (m : ℕ) (xs : List (Option ℚ)) :
    ∀ (st : Option ℚ) (cnt : ℕ), (∀ x ∈ xs, x ≠ none) →
      ∀ i, i < xs.length →
        ((ewmAux a m st cnt xs)[i]? = some none ↔ cnt + i + 1 < m) := by
  induction xs with
  | nil =>
    intro st cnt _ i hi
    simp at hi
  | cons x tl ih =>
    intro st cnt hall i hi
    cases x with
    | none => exact absurd rfl (hall none (List.mem_cons_self _ _))
    | some v =>
      cases i with
      | zero =>
        show ((if m ≤ cnt + 1 then some (ewmStep a st v) else none) ::
          ewmAux a m (some (ewmStep a st v)) (cnt + 1) tl)[0]? = some none ↔
            cnt + 0 + 1 < m
        rw [List.getElem?_cons_zero]
        by_cases h : m ≤ cnt + 1
        · rw [if_pos h]
          simp
          omega
        · rw [if_neg h]
          simp
          omega
      | succ j =>
        show ((if m ≤ cnt + 1 then some (ewmStep a st v) else none) ::
          ewmAux a m (some (ewmStep a st v)) (cnt + 1) tl)[j + 1]? = some none ↔
            cnt + (j + 1) + 1 < m
        rw [List.getElem?_cons_succ,
          ih (some (ewmStep a st v)) (cnt + 1)
            (fun y hy => hall y (List.mem_cons_of_mem _ hy)) j (by simpa using hi)]
        omega

/-- With a NaN first segment and observations after it, the EWM cell at
`i` is NaN exactly before index `k + m - 1` (the count starts only at the
first observation). -/
theorem ewmAux_nanPad_getElem (a : ℚ) (m : ℕ) (hm : 1 ≤ m) :
    ∀ (k : ℕ) (ys : List (Option ℚ)), (∀ y ∈ ys, y ≠ none) →
      ∀ i, i < k + ys.length →
        ((ewmAux a m none 0 (List.replicate k none ++ ys))[i]? = some none ↔
          i + 1 < k + m) := by
  intro k
  induction k with
  | zero =>
    intro ys hys i hi
    rw [List.replicate_zero, List.nil_append]
    rw [ewmAux_allSome_getElem a m ys none 0 hys i (by simpa using hi)]
    omega
  | succ n ihn =>
    intro ys hys i hi
    rw [List.replicate_succ, List.cons_append]
    show ((if m ≤ 0 then none else none) ::
      ewmAux a m none 0 (List.replicate n none ++ ys))[i]? = some none ↔
        i + 1 < n + 1 + m
    rw [ite_self]
    cases i with
    | zero =>
      rw [List.getElem?_cons_zero]
      simp
      omega
    | succ j =>
      rw [List.getElem?_cons_succ, ihn ys hys j (by omega)]
      omega

/-- One SMA cell per candle. -/
theorem sma_length (w : ℕ) (xs : List ℚ) : (sma w xs).length = xs.length := by
  simp [sma]

/-- One diff cell per candle. -/
theorem diffList_length (xs : List ℚ) : (diffList xs).length = xs.length := by
  cases xs with
  | nil => rfl
  | cons c tl => simp [diffList]

/-- `zipCells` keeps the length of aligned inputs. -/
theorem zipCells_length (f : ℚ → ℚ → ℚ) (as bs : List (Option ℚ)) :
    (zipCells f as bs).length = min as.length bs.length := by
  simp [zipCells]

/-- One macd cell per candle. -/
theorem macdLine_length (closes : List ℚ) :
    (macdLine closes).length = closes.length := by
  rw [macdLine, zipCells_length, taEma, taEma, ewmMean, ewmMean,
    ewmAux_length, ewmAux_length]
  simp

/-- One macd-signal cell per candle. -/
theorem macdSignal_length (closes : List ℚ) :
    (macdSignal closes).length = closes.length := by
  rw [macdSignal, taEma, ewmMean, ewmAux_length, macdLine_length]

/-- One RSI cell per candle. -/
theorem rsiCol_length (window : ℕ) (closes : List ℚ) :
    (rsiCol window closes).length = closes.length := by
  rw [rsiCol]
  simp only [List.length_map, zipCells_length, ewmMean, ewmAux_length,
    List.length_map, upMoves, downMoves, diffList_length]
  simp

/-- The `ta` EMA of the close column is NaN exactly on the first
`periods - 1` cells. -/
theorem taEma_closes_getElem (p : ℕ) (closes : List ℚ) (i : ℕ)
    (hi : i < closes.length) :
    ((taEma p (closes.map some))[i]? = some none ↔ i + 1 < p) := by
  have hall : ∀ x ∈ closes.map some, x ≠ none := by simp
  have := ewmAux_allSome_getElem (2 / ((p : ℚ) + 1)) p (closes.map some) none 0
    hall i (by simpa using hi)
  rw [taEma, ewmMean, this]
  omega

/-- The macd cell at `i` is NaN exactly for `i < 25` (the slow EMA's
26-observation requirement dominates the fast one's). -/
theorem macdLine_getElem (closes : List ℚ) (i : ℕ) (hi : i < closes.length) :
    ((macdLine closes)[i]? = some none ↔ i < 25) := by
  have h12len : i < (taEma 12 (closes.map some)).length := by
    rw [taEma, ewmMean, ewmAux_length]
    simpa using hi
  have h26len : i < (taEma 26 (closes.map some)).length := by
    rw [taEma, ewmMean, ewmAux_length]
    simpa using hi
  obtain ⟨c12, hc12⟩ : ∃ c, (taEma 12 (closes.map some))[i]? = some c :=
    ⟨_, List.getElem?_eq_getElem h12len⟩
  obtain ⟨c26, hc26⟩ : ∃ c, (taEma 26 (closes.map some))[i]? = some c :=
    ⟨_, List.getElem?_eq_getElem h26len⟩
  have h12 := taEma_closes_getElem 12 closes i hi
  have h26 := taEma_closes_getElem 26 closes i hi
  rw [hc12] at h12
  rw [hc26] at h26
  rw [macdLine, zipCells, List.getElem?_zipWith, hc12, hc26]
  cases c12 with
  | none =>
    have h1 : i + 1 < 12 := h12.1 rfl
    cases c26 with
    | none => simp; omega
    | some y => simp; omega
  | some x =>
    cases c26 with
    | none =>
      have h2 : i + 1 < 26 := h26.1 rfl
      simp
      omega
    | some y =>
      have hx : ¬ (i + 1 < 12) := fun hlt => by
        have := h12.2 hlt
        simp at this
      have hy : ¬ (i + 1 < 26) := fun hlt => by
        have := h26.2 hlt
        simp at this
      simp
      omega

/-- Any series whose NaNs are exactly the cells before index `K` splits
into a NaN pad followed by observations. -/
theorem decomp_of_pointwise {l : List (Option ℚ)} {K : ℕ}
    (h : ∀ i, i < l.length → (l[i]? = some none ↔ i < K)) :
    l = List.replicate (min K l.length) none ++ l.drop (min K l.length) ∧
      ∀ y ∈ l.drop (min K l.length), y ≠ none := by
  constructor
  · conv_lhs => rw [← List.take_append_drop (min K l.length) l]
    congr 1
    rw [List.eq_replicate_iff]
    constructor
    · rw [List.length_take]
      omega
    · intro b hb
      obtain ⟨j, hj, hget⟩ := List.mem_iff_getElem.1 hb
      have hjl : j < l.length := by
        rw [List.length_take] at hj
        omega
      have hjK : j < K := by
        rw [List.length_take] at hj
        omega
      have : l[j]? = some none := (h j hjl).2 hjK
      rw [List.getElem?_eq_getElem hjl] at this
      rw [List.getElem_take] at hget
      rw [← hget]
      exact Option.some_injective _ this
  · intro y hy
    obtain ⟨j, hj, hget⟩ := List.mem_iff_getElem.1 hy
    have hjl : min K l.length + j < l.length := by
      rw [List.length_drop] at hj
      omega
    have hnK : ¬ (min K l.length + j < K) := by
      rw [List.length_drop] at hj
      omega
    have hno : ¬ (l[min K l.length + j]? = some none) := fun hc =>
      hnK ((h _ hjl).1 hc)
    rw [List.getElem_drop] at hget
    intro hy0
    apply hno
    rw [List.getElem?_eq_getElem hjl]
    exact congrArg some (hget.trans hy0)

/-- The macd-signal cell at `i` is NaN exactly for `i < 33` (nine macd
observations on top of the 25-cell NaN pad). -/
theorem macdSignal_getElem (closes : List ℚ) (i : ℕ) (hi : i < closes.length) :
    ((macdSignal closes)[i]? = some none ↔ i < 33) := by
  have hlen : (macdLine closes).length = closes.length := macdLine_length closes
  obtain ⟨hdec, hobs⟩ := decomp_of_pointwise (fun j hj =>
    macdLine_getElem closes j (by omega))
  set n := min 25 (macdLine closes).length with hn
  have hilen : i < n + ((macdLine closes).drop n).length := by
    rw [List.length_drop]
    omega
  have hstep := ewmAux_nanPad_getElem (2 / ((9 : ℚ) + 1)) 9 (by norm_num) n
    ((macdLine closes).drop n) hobs i hilen
  have hrw : macdSignal closes =
      ewmAux (2 / ((9 : ℚ) + 1)) 9 none 0
        (List.replicate n none ++ (macdLine closes).drop n) := by
    rw [macdSignal, taEma, ewmMean]
    conv_lhs => rw [hdec]
    norm_num
  rw [hrw, hstep]
  omega

/-- C2 (amended): on every candle sequence, macd is null exactly at
indices below 25 and macd_signal exactly at indices below 33 — the `ta`
EMA applies `min_periods = window` when `fillna=False`, so exponential
averages do have an insufficient-data NaN cutoff, and both fields are
non-null from those indices onward. -/
theorem C2_macd_null_window (closes : List ℚ) :
    ∀ i, i < closes.length →
      (((add_basic_indicators closes).macd[i]? = some none ↔ i < 25) ∧
        ((add_basic_indicators closes).macd_signal[i]? = some none ↔ i < 33)) :=
  fun i hi => ⟨macdLine_getElem closes i hi, macdSignal_getElem closes i hi⟩

/-- C2 (counterexample): on the one-candle sequence `[100]` the macd and
macd_signal cells at index 0 are null, refuting non-nullness at every
index of every non-empty sequence. -/
theorem C2_cex_macd_null_at_zero :
    (add_basic_indicators [100]).macd = [none] ∧
      (add_basic_indicators [100]).macd_signal = [none] :=
  ⟨rfl, rfl⟩

/-- C2 (witness): the amended claim applied to the one-candle sequence at
index 0. -/
theorem C2_witness :
    ((add_basic_indicators [(1 : ℚ)]).macd[0]? = some none ↔ 0 < 25) ∧
      ((add_basic_indicators [(1 : ℚ)]).macd_signal[0]? = some none ↔ 0 < 33) :=
  C2_macd_null_window [(1 : ℚ)] 0 (by norm_num)

/-- C7: the indicator output has one record per input candle in every
column, and `sma_fast` (window 9) is null exactly at indices `0..7`,
non-null from index 8 on. -/
theorem C7_alignment_and_sma_window (closes : List ℚ) :
    ((add_basic_indicators closes).sma_fast.length = closes.length ∧
      (add_basic_indicators closes).sma_slow.length = closes.length ∧
      (add_basic_indicators closes).rsi.length = closes.length ∧
      (add_basic_indicators closes).macd.length = closes.length ∧
      (add_basic_indicators closes).macd_signal.length = closes.length) ∧
    ∀ i, i < closes.length →
      ((add_basic_indicators closes).sma_fast[i]? = some none ↔ i < 8) := by
  refine ⟨⟨sma_length 9 closes, sma_length 21 closes, rsiCol_length 14 closes,
    macdLine_length closes, macdSignal_length closes⟩, ?_⟩
  intro i hi
  show (sma 9 closes)[i]? = some none ↔ i < 8
  rw [sma, List.getElem?_map, List.getElem?_range hi]
  simp only [Option.map_some']
  by_cases h : 9 ≤ i + 1
  · rw [if_pos h]
    simp
    omega
  · rw [if_neg h]
    simp
    omega

/-- C7 (witness): the claim applied to a nine-candle sequence at indices 7
and 8. -/
theorem C7_witness :
    (add_basic_indicators [1, 2, 3, 4, 5, 6, 7, 8, 9]).sma_fast.length = 9 ∧
      ((add_basic_indicators [1, 2, 3, 4, 5, 6, 7, 8, 9]).sma_fast[7]? =
          some none ↔ 7 < 8) ∧
      ((add_basic_indicators [1, 2, 3, 4, 5, 6, 7, 8, 9]).sma_fast[8]? =
          some none ↔ 8 < 8) := by
  have h := C7_alignment_and_sma_window [1, 2, 3, 4, 5, 6, 7, 8, 9]
  exact ⟨h.1.1, h.2 7 (by norm_num), h.2 8 (by norm_num)⟩

/-- C8: the indicator pipeline on an empty candle sequence returns an
empty series — every indicator column exists and is empty, with no error. -/
theorem C8_empty_input :
    add_basic_indicators [] = ⟨[], [], [], [], [], []⟩ := rfl

